import Mathlib

/-!
Verification of the Maestro feature-orchestration engine.

This file gives a shallow embedding of the orchestration core:
session-name sanitisation (`getSessionName`), tmux session topology
construction (`createTmuxSession`), prompt injection (`injectPrompts`),
worktree provisioning (`createWorktrees`), orchestration-state
construction (`buildOrchestraState`), state loading
(`loadOrchestraState`), the session-config schema check
(`sessionConfigAccepts`) and the dependency resolver
(`resolveDependencies`).  External effects (tmux commands, git
commands) are embedded as explicit traces of operations; external
collaborators (the git binary, the filesystem, the JSON parser) are
oracles passed as arguments.
-/

namespace Maestro

/-- A character kept verbatim by the session-name sanitiser: the source
regex class `[a-zA-Z0-9-]` of `getSessionName`. -/
def allowedChar (c : Char) : Bool :=
  (('a' ≤ c && c ≤ 'z') || ('A' ≤ c && c ≤ 'Z') || ('0' ≤ c && c ≤ '9') || c = '-')

/-- One step of `String.replace(/[^a-zA-Z0-9-]/g, '-')`. -/
def sanitizeChar (c : Char) : Char :=
  if allowedChar c then c else '-'

/-- `` `${x}`.replace(/[^a-zA-Z0-9-]/g, '-') `` applied to a whole string. -/
def sanitizeName (s : String) : String :=
  String.mk (s.data.map sanitizeChar)

/-- `getSessionName` from `src/utils/orchestration.ts`:
`` `${feature}-${session}`.replace(/[^a-zA-Z0-9-]/g, '-').substring(0, 30) ``. -/
def getSessionName (feature : String) (session : String) : String :=
  String.mk (((feature ++ "-" ++ session).data.map sanitizeChar).take 30)

theorem sanitizeName_length (s : String) : (sanitizeName s).length = s.length := by
  have h : (sanitizeName s).length = (s.data.map sanitizeChar).length := rfl
  rw [h, List.length_map]
  rfl

theorem getSessionName_length_le (feature session : String) :
    (getSessionName feature session).length ≤ 30 := by
  have h : (getSessionName feature session).length
      = (((feature ++ "-" ++ session).data.map sanitizeChar).take 30).length := rfl
  rw [h, List.length_take]
  exact min_le_left _ _

theorem allowedChar_sanitizeChar (a : Char) : allowedChar (sanitizeChar a) = true := by
  by_cases h : allowedChar a = true
  · simp [sanitizeChar, h]
  · rw [sanitizeChar, if_neg (by simp [h])]
    decide

/-- C7: the fully-qualified session id is the character-wise sanitisation of
`feature ++ "-" ++ session` truncated to 30 characters: it has length at most
30, every character of it lies in `[A-Za-z0-9-]`, and it equals the
sanitisation of the first 30 characters of the concatenation. -/
theorem getSessionName_spec (feature session : String) :
    (getSessionName feature session).length ≤ 30
    ∧ (∀ c ∈ (getSessionName feature session).data, allowedChar c = true)
    ∧ getSessionName feature session
        = String.mk (((feature ++ "-" ++ session).data.take 30).map sanitizeChar) := by
  refine ⟨getSessionName_length_le feature session, ?_, ?_⟩
  · intro c hc
    simp only [getSessionName] at hc
    have hc' : c ∈ ((feature ++ "-" ++ session).data.map sanitizeChar) :=
      List.mem_of_mem_take hc
    rcases List.mem_map.mp hc' with ⟨a, _, rfl⟩
    exact allowedChar_sanitizeChar a
  · simp [getSessionName, List.map_take]

/-- Closed witness for `getSessionName_spec` at a concrete input containing
a space and an exclamation mark (both sanitised to `-`). -/
theorem getSessionName_spec_witness :
    (getSessionName "my feature!" "dev").length ≤ 30
    ∧ (∀ c ∈ (getSessionName "my feature!" "dev").data, allowedChar c = true)
    ∧ getSessionName "my feature!" "dev"
        = String.mk ((("my feature!" ++ "-" ++ "dev").data.take 30).map sanitizeChar) :=
  getSessionName_spec "my feature!" "dev"

/-- `SessionConfig` from `src/types/orchestration.ts`: one tmux session
request.  `layout` is the optional literal layout string. -/
structure SessionConfig where
  name : String
  panes : Nat
  layout : Option String
  prompts : List String
deriving DecidableEq, Repr

/-- One external tmux command issued by the topology builder, recorded as a
trace element. -/
inductive TmuxOp where
  | hasSession (name : String)
  | newSession (name : String) (cwd : String)
  | splitWindow (target : String) (cwd : String) (horizontal : Bool)
  | selectLayout (target : String) (layout : String)
  | renameWindow (target : String) (windowName : String)
deriving DecidableEq, Repr

def TmuxOp.isSplit : TmuxOp → Bool
  | .splitWindow _ _ _ => true
  | _ => false

/-- The split-orientation choice of `createTmuxSession` for the `i`-th extra
pane (`i` starts at 1), transcribed from the if/else-if chain in
`src/utils/orchestration.ts`: `-h` for `even-horizontal`/`main-horizontal`,
`-v` for `even-vertical`/`main-vertical`, otherwise alternating on `i % 2`. -/
def splitHorizontal (layout : Option String) (i : Nat) : Bool :=
  if layout == some "even-horizontal" || layout == some "main-horizontal" then true
  else if layout == some "even-vertical" || layout == some "main-vertical" then false
  else if i % 2 == 0 then true else false

/-- The split-orientation rule as the specification states it: a fixed
orientation for each of the four directional layout values, otherwise
alternation by pane index parity (even index horizontal, odd vertical). -/
def specSplitHorizontal (layout : Option String) (i : Nat) : Bool :=
  match layout with
  | some "even-horizontal" => true
  | some "main-horizontal" => true
  | some "even-vertical" => false
  | some "main-vertical" => false
  | _ => i % 2 == 0

theorem splitHorizontal_eq_spec (layout : Option String) (i : Nat) :
    splitHorizontal layout i = specSplitHorizontal layout i := by
  rcases layout with _ | l
  · rcases Nat.mod_two_eq_zero_or_one i with h | h <;>
      simp [splitHorizontal, specSplitHorizontal, h]
  · by_cases h1 : l = "even-horizontal"
    · simp [splitHorizontal, specSplitHorizontal, h1]
    · by_cases h2 : l = "main-horizontal"
      · simp [splitHorizontal, specSplitHorizontal, h2]
      · by_cases h3 : l = "even-vertical"
        · simp [splitHorizontal, specSplitHorizontal, h3]
        · by_cases h4 : l = "main-vertical"
          · simp [splitHorizontal, specSplitHorizontal, h4]
          · simp only [specSplitHorizontal]
            split
            · simp_all
            · simp_all
            · simp_all
            · simp_all
            · rcases Nat.mod_two_eq_zero_or_one i with h | h <;>
                simp [splitHorizontal, h1, h2, h3, h4, h]

/-- `createTmuxSession` from `src/utils/orchestration.ts`.  The tmux server
is embedded as a world `List (String × Nat)` mapping each existing session
name to its pane count; the returned triple is the session name the source
returns, the updated world, and the trace of tmux commands issued.  The
initial `has-session` probe is the first trace element; when it succeeds the
source logs and returns early, otherwise it creates the detached session,
performs `panes - 1` splits, applies the layout when set, and renames the
window. -/
def createTmuxSession (feature : String) (session : SessionConfig)
    (worktreePath : String) (world : List (String × Nat)) :
    String × List (String × Nat) × List TmuxOp :=
  let sessionName := getSessionName feature session.name
  if sessionName ∈ world.map Prod.fst then
    (sessionName, world, [TmuxOp.hasSession sessionName])
  else
    let splits := (List.range' 1 (session.panes - 1)).map
      (fun i => TmuxOp.splitWindow sessionName worktreePath (splitHorizontal session.layout i))
    let layoutOps := match session.layout with
      | some l => [TmuxOp.selectLayout sessionName l]
      | none => []
    (sessionName,
     world ++ [(sessionName, 1 + (session.panes - 1))],
     TmuxOp.hasSession sessionName :: TmuxOp.newSession sessionName worktreePath ::
       (splits ++ layoutOps ++ [TmuxOp.renameWindow sessionName session.name]))

/-- C5: the session builder is idempotent.  After any first call, a second
call with the same feature and session name returns the same session id,
leaves the tmux world unchanged (so no duplicate panes are created), and
issues only the `has-session` probe (no error, no pane-creating command). -/
theorem createTmuxSession_idempotent (feature : String) (session : SessionConfig)
    (worktreePath : String) (world : List (String × Nat)) :
    createTmuxSession feature session worktreePath
        (createTmuxSession feature session worktreePath world).2.1
      = ((createTmuxSession feature session worktreePath world).1,
         (createTmuxSession feature session worktreePath world).2.1,
         [TmuxOp.hasSession (createTmuxSession feature session worktreePath world).1]) := by
  by_cases h : getSessionName feature session.name ∈ world.map Prod.fst
  · simp [createTmuxSession, h]
  · simp [createTmuxSession, h]

/-- C6: when the derived session id is fresh and the requested pane count is
at least 1, the builder issues exactly `panes - 1` split commands, and the
`i`-th split (`i` starting at 1) uses the orientation given by the
specification rule `specSplitHorizontal`: fixed `-h` for
`even-horizontal`/`main-horizontal`, fixed `-v` for
`even-vertical`/`main-vertical`, otherwise alternating by index parity with
even `i` horizontal and odd `i` vertical. -/
theorem createTmuxSession_split_count (feature : String) (session : SessionConfig)
    (worktreePath : String) (world : List (String × Nat))
    (hfresh : getSessionName feature session.name ∉ world.map Prod.fst)
    (_hpanes : 1 ≤ session.panes) :
    ((createTmuxSession feature session worktreePath world).2.2.filter TmuxOp.isSplit).length
        = session.panes - 1
    ∧ (createTmuxSession feature session worktreePath world).2.2.filter TmuxOp.isSplit
        = (List.range' 1 (session.panes - 1)).map
            (fun i => TmuxOp.splitWindow (getSessionName feature session.name) worktreePath
              (specSplitHorizontal session.layout i)) := by
  have hsplits :
      (createTmuxSession feature session worktreePath world).2.2.filter TmuxOp.isSplit
        = (List.range' 1 (session.panes - 1)).map
            (fun i => TmuxOp.splitWindow (getSessionName feature session.name) worktreePath
              (specSplitHorizontal session.layout i)) := by
    simp only [createTmuxSession, if_neg hfresh]
    rcases session.layout with _ | l <;>
      simp [List.filter_append, TmuxOp.isSplit, List.filter_map,
        Function.comp_def, splitHorizontal_eq_spec, List.filter_true]
  refine ⟨?_, hsplits⟩
  rw [hsplits, List.length_map, List.length_range']

/-- Closed witness for `createTmuxSession_split_count`: a fresh 4-pane tiled
session yields exactly 3 splits with alternating orientations. -/
theorem createTmuxSession_split_count_witness :
    (((createTmuxSession "f" ⟨"s", 4, some "tiled", []⟩ "/wt" []).2.2.filter
        TmuxOp.isSplit).length = 4 - 1)
    ∧ ((createTmuxSession "f" ⟨"s", 4, some "tiled", []⟩ "/wt" []).2.2.filter TmuxOp.isSplit
        = (List.range' 1 (4 - 1)).map
            (fun i => TmuxOp.splitWindow (getSessionName "f" "s") "/wt"
              (specSplitHorizontal (some "tiled") i))) :=
  createTmuxSession_split_count "f" ⟨"s", 4, some "tiled", []⟩ "/wt" []
    (by simp) (by decide)

/-- One external call made by the prompt injector: a literal
`tmux send-keys -t target key` invocation or the fixed settling delay. -/
inductive PaneCall where
  | sendKeys (target : String) (key : String)
  | sleep (ms : Nat)
deriving DecidableEq, Repr

/-- The pane target string `` `${sessionName}:0.${i}` `` of `injectPrompts`. -/
def paneTarget (sessionName : String) (i : Nat) : String :=
  sessionName ++ ":0." ++ toString i

/-- The literal hint text `injectPrompts` appends after each prompt. -/
def executionHint : String := " # [Press Enter to execute]"

/-- Loop body of `injectPrompts` from `src/utils/orchestration.ts`, carrying
the current prompt index: for each prompt, skip it when falsy (empty),
otherwise send `C-c` to pane `i`, sleep 100 ms, send the prompt text, and
send the execution hint; no `Enter` is ever sent. -/
def injectPromptsGo (sessionName : String) : Nat → List String → List PaneCall
  | _, [] => []
  | i, p :: rest =>
    (if p = "" then [] else
      [PaneCall.sendKeys (paneTarget sessionName i) "C-c",
       PaneCall.sleep 100,
       PaneCall.sendKeys (paneTarget sessionName i) p,
       PaneCall.sendKeys (paneTarget sessionName i) executionHint])
    ++ injectPromptsGo sessionName (i + 1) rest

/-- `injectPrompts` from `src/utils/orchestration.ts`: the trace of tmux
calls issued for a session and its ordered prompt list.  The pane count of
the session is not an input: the source iterates over the prompt list
alone. -/
def injectPrompts (sessionName : String) (prompts : List String) : List PaneCall :=
  injectPromptsGo sessionName 0 prompts

/-- The per-index call block as the amended specification states it. -/
def promptOps (sessionName : String) (i : Nat) (p : String) : List PaneCall :=
  if p = "" then [] else
    [PaneCall.sendKeys (paneTarget sessionName i) "C-c",
     PaneCall.sleep 100,
     PaneCall.sendKeys (paneTarget sessionName i) p,
     PaneCall.sendKeys (paneTarget sessionName i) executionHint]

/-- Counterexample to C4 as stated.  With prompts `["echo a", "echo b"]`
against a session that has a single pane, the claim says the second prompt
is ignored; instead the injector targets pane index 1 anyway (the pane count
is never consulted).  Moreover the per-pane call sequence is not just
interrupt/delay/prompt: a literal hint comment is also written, as the full
trace for a single prompt shows. -/
theorem injectPrompts_counterexample :
    PaneCall.sendKeys (paneTarget "work" 1) "echo b"
        ∈ injectPrompts "work" ["echo a", "echo b"]
    ∧ injectPrompts "work" ["echo a"]
        = [PaneCall.sendKeys (paneTarget "work" 0) "C-c",
           PaneCall.sleep 100,
           PaneCall.sendKeys (paneTarget "work" 0) "echo a",
           PaneCall.sendKeys (paneTarget "work" 0) executionHint] := by
  constructor
  · simp [injectPrompts, injectPromptsGo, paneTarget]
  · rfl

theorem injectPromptsGo_closed (sessionName : String) :
    ∀ (prompts : List String) (i : Nat),
      injectPromptsGo sessionName i prompts
        = (List.enumFrom i prompts).flatMap (fun q => promptOps sessionName q.1 q.2) := by
  intro prompts
  induction prompts with
  | nil => intro i; rfl
  | cons p rest ih =>
    intro i
    simp [injectPromptsGo, List.enumFrom, ih (i + 1), promptOps]

theorem injectPromptsGo_sendKeys_shape (sessionName : String) :
    ∀ (prompts : List String) (i : Nat) (tgt k : String),
      PaneCall.sendKeys tgt k ∈ injectPromptsGo sessionName i prompts →
      (k = "C-c" ∨ k ∈ prompts ∨ k = executionHint)
      ∧ ∃ j p, prompts.get? j = some p ∧ p ≠ "" ∧ tgt = paneTarget sessionName (i + j) := by
  intro prompts
  induction prompts with
  | nil => intro i tgt k h; simp [injectPromptsGo] at h
  | cons p rest ih =>
    intro i tgt k h
    simp only [injectPromptsGo, List.mem_append] at h
    rcases h with h | h
    · by_cases hp : p = ""
      · simp [hp] at h
      · simp only [hp, if_false, List.mem_cons, List.not_mem_nil, or_false] at h
        rcases h with h | h | h | h
        · exact ⟨Or.inl (PaneCall.sendKeys.inj h).2,
            0, p, by simp, hp, by simpa using (PaneCall.sendKeys.inj h).1⟩
        · exact absurd h (by simp)
        · exact ⟨Or.inr (Or.inl (by simp [(PaneCall.sendKeys.inj h).2])),
            0, p, by simp, hp, by simpa using (PaneCall.sendKeys.inj h).1⟩
        · exact ⟨Or.inr (Or.inr (PaneCall.sendKeys.inj h).2),
            0, p, by simp, hp, by simpa using (PaneCall.sendKeys.inj h).1⟩
    · rcases ih (i + 1) tgt k h with ⟨hk, j, q, hq, hne, htgt⟩
      refine ⟨?_, j + 1, q, by simpa using hq, hne, by simpa [Nat.add_assoc, Nat.add_comm 1 j] using htgt⟩
      rcases hk with hk | hk | hk
      · exact Or.inl hk
      · exact Or.inr (Or.inl (List.mem_cons_of_mem _ hk))
      · exact Or.inr (Or.inr hk)

/-- C4 amended: for each index `i` with a non-empty prompt, the injector
emits, in order, an interrupt (`C-c`) to pane `i`, a fixed 100 ms delay, the
literal prompt text, and a literal hint comment — all addressed to pane `i`
by position; empty prompts produce no calls for their index; every key ever
sent is either the interrupt, one of the prompts, or the hint comment (never
an execution key), and every target is a pane index holding a non-empty
prompt.  The pane count is not consulted, so prompts beyond the pane count
still target their positional pane rather than being ignored. -/
theorem injectPrompts_amended (sessionName : String) (prompts : List String) :
    injectPrompts sessionName prompts
        = (List.enumFrom 0 prompts).flatMap (fun q => promptOps sessionName q.1 q.2)
    ∧ (∀ tgt k, PaneCall.sendKeys tgt k ∈ injectPrompts sessionName prompts →
        (k = "C-c" ∨ k ∈ prompts ∨ k = executionHint)
        ∧ ∃ j p, prompts.get? j = some p ∧ p ≠ "" ∧ tgt = paneTarget sessionName j) := by
  refine ⟨injectPromptsGo_closed sessionName prompts 0, ?_⟩
  intro tgt k h
  rcases injectPromptsGo_sendKeys_shape sessionName prompts 0 tgt k h with ⟨hk, j, p, hp, hne, htgt⟩
  exact ⟨hk, j, p, hp, hne, by simpa using htgt⟩

/-- Closed witness for `injectPrompts_amended` at a concrete input. -/
theorem injectPrompts_amended_witness :
    (injectPrompts "work" ["echo a", ""]
        = (List.enumFrom 0 ["echo a", ""]).flatMap (fun q => promptOps "work" q.1 q.2))
    ∧ (("echo a" = "C-c" ∨ "echo a" ∈ ["echo a", ""] ∨ "echo a" = executionHint)
        ∧ ∃ j p, ["echo a", ""].get? j = some p ∧ p ≠ ""
            ∧ paneTarget "work" 0 = paneTarget "work" j) :=
  ⟨(injectPrompts_amended "work" ["echo a", ""]).1,
   (injectPrompts_amended "work" ["echo a", ""]).2 (paneTarget "work" 0) "echo a"
     (by simp [injectPrompts, injectPromptsGo])⟩

/-- `FeatureConfig` from `src/types/orchestration.ts` (the fields the
orchestration engine reads). -/
structure FeatureConfig where
  feature : String
  description : String
  branch_prefix : Option String
  sessions : List SessionConfig
  dependencies : Option (List String)
deriving DecidableEq, Repr

/-- Branch name derived in `createWorktrees`:
`feature.branch_prefix ? branch_prefix + feature : feature`. -/
def branchName (f : FeatureConfig) : String :=
  match f.branch_prefix with
  | some p => p ++ f.feature
  | none => f.feature

/-- One external git-worktree command, recorded as a trace element.
`delete` is `GitWorktreeManager.deleteWorktree(branch, force)`. -/
inductive GitOp where
  | create (branch : String) (base : String)
  | delete (branch : String) (force : Bool)
deriving DecidableEq, Repr

def GitOp.isDelete : GitOp → Bool
  | .delete _ _ => true
  | _ => false

/-- Sequential arm of `createWorktrees` from `src/utils/orchestration.ts`:
awaits each creation in order; the first failure logs, rethrows, and aborts
the remaining creations.  `git` is the external
`GitWorktreeManager.createWorktree` oracle; the result is the worktree-path
map the source returns (or the rethrown error) paired with the trace of git
operations issued. -/
def createWorktreesSeq (git : String → String → Except String String)
    (baseBranch : String) :
    List FeatureConfig → Except String (List (String × String)) × List GitOp
  | [] => (Except.ok [], [])
  | f :: rest =>
    let b := branchName f
    match git b baseBranch with
    | Except.error e => (Except.error e, [GitOp.create b baseBranch])
    | Except.ok path =>
      let r := createWorktreesSeq git baseBranch rest
      (match r.1 with
       | Except.error e => Except.error e
       | Except.ok m => Except.ok ((f.feature, path) :: m),
       GitOp.create b baseBranch :: r.2)

/-- Parallel arm of `createWorktrees`: `Promise.all` issues every creation
(so every create command is attempted and appears in the trace) and rejects
with the first failure. -/
def createWorktreesPar (git : String → String → Except String String)
    (baseBranch : String) (features : List FeatureConfig) :
    Except String (List (String × String)) × List GitOp :=
  let attempts := features.map (fun f => (f, git (branchName f) baseBranch))
  (match attempts.filterMap
      (fun q => match q.2 with | Except.error e => some e | Except.ok _ => none) with
   | e :: _ => Except.error e
   | [] => Except.ok (attempts.filterMap
       (fun q => match q.2 with
         | Except.ok path => some (q.1.feature, path)
         | Except.error _ => none)),
   attempts.map (fun q => GitOp.create (branchName q.1) baseBranch))

/-- `createWorktrees` from `src/utils/orchestration.ts`. -/
def createWorktrees (features : List FeatureConfig) (baseBranch : String)
    (parallel : Bool) (git : String → String → Except String String) :
    Except String (List (String × String)) × List GitOp :=
  if parallel then createWorktreesPar git baseBranch features
  else createWorktreesSeq git baseBranch features

/-- The provisioning phase of `implementCommand` (`src/commands/implement.ts`):
`createWorktrees` runs inside a try/catch whose catch block only logs
`Implementation failed` and exits the process — it issues no git command —
so the complete git trace of a run that fails during provisioning is exactly
the trace of `createWorktrees`. -/
def implementProvisionPhase (features : List FeatureConfig) (baseBranch : String)
    (parallel : Bool) (git : String → String → Except String String) :
    Except String (List (String × String)) × List GitOp :=
  createWorktrees features baseBranch parallel git

def cFeature (n : String) : FeatureConfig :=
  { feature := n, description := n, branch_prefix := none,
    sessions := [], dependencies := none }

/-- A git oracle on which creating the worktree for branch `"c"` fails and
every other creation succeeds. -/
def demoGitFail : String → String → Except String String :=
  fun branch _base =>
    if branch = "c" then Except.error "fatal: could not create worktree"
    else Except.ok ("/repo/worktrees/" ++ branch)

/-- C1 evaluated on the code: provisioning three features sequentially where
the third worktree creation fails (after `"a"` and `"b"` were successfully
created) re-raises the original error, but the git trace contains no delete
operation at all — neither in sequential nor in parallel mode — so the two
successfully created workspaces are not force-deleted, contrary to the
claim. -/
theorem implementProvision_no_rollback :
    (implementProvisionPhase [cFeature "a", cFeature "b", cFeature "c"] "main" false
        demoGitFail).1 = Except.error "fatal: could not create worktree"
    ∧ (implementProvisionPhase [cFeature "a", cFeature "b", cFeature "c"] "main" false
        demoGitFail).2
        = [GitOp.create "a" "main", GitOp.create "b" "main", GitOp.create "c" "main"]
    ∧ (implementProvisionPhase [cFeature "a", cFeature "b", cFeature "c"] "main" false
        demoGitFail).2.filter GitOp.isDelete = []
    ∧ (implementProvisionPhase [cFeature "a", cFeature "b", cFeature "c"] "main" true
        demoGitFail).2.filter GitOp.isDelete = [] :=
  ⟨rfl, rfl, rfl, rfl⟩

/-- `SessionState` from `src/types/orchestration.ts`. -/
structure SessionState where
  name : String
  session_name : String
  panes : Nat
  status : String
  attached_count : Nat
deriving DecidableEq, Repr

/-- `FeatureState` from `src/types/orchestration.ts`. -/
structure FeatureState where
  feature : String
  worktree_path : String
  status : String
  created_at : String
  sessions : List SessionState
deriving DecidableEq, Repr

/-- `OrchestraState` from `src/types/orchestration.ts`. -/
structure OrchestraState where
  created_at : String
  status : String
  features : List FeatureState
deriving DecidableEq, Repr

/-- The `OrchestraState` value `implementCommand` builds right before
`saveOrchestraState` (`src/commands/implement.ts`): status `active`, every
feature and session `created`, `attached_count` 0, and each recorded
`session_name` computed as `` `${f.feature}-${s.name}`.replace(/[^a-zA-Z0-9-]/g, '-') ``
— sanitised but *not* truncated. -/
def buildOrchestraState (now : String) (features : List FeatureConfig)
    (paths : List (String × String)) : OrchestraState :=
  { created_at := now
    status := "active"
    features := features.map fun f =>
      { feature := f.feature
        worktree_path := (List.lookup f.feature paths).getD ""
        status := "created"
        created_at := now
        sessions := f.sessions.map fun s =>
          { name := s.name
            session_name := sanitizeName (f.feature ++ "-" ++ s.name)
            panes := s.panes
            status := "created"
            attached_count := 0 } } }

/-- C9: in the persisted state of a successful run, every session's recorded
`session_name` is the sanitised concatenation of feature and session name
without the 30-character truncation that `getSessionName` applies, so
whenever that sanitised concatenation is longer than 30 characters the
recorded name differs from the id of the tmux session actually created. -/
theorem orchestraState_session_name_untruncated (now : String)
    (features : List FeatureConfig) (paths : List (String × String))
    (f : FeatureConfig) (s : SessionConfig)
    (hf : f ∈ features) (hs : s ∈ f.sessions) :
    ∃ fs ∈ (buildOrchestraState now features paths).features,
      fs.feature = f.feature
      ∧ ∃ ss ∈ fs.sessions,
          ss.name = s.name
          ∧ ss.session_name = sanitizeName (f.feature ++ "-" ++ s.name)
          ∧ (30 < (sanitizeName (f.feature ++ "-" ++ s.name)).length →
              ss.session_name ≠ getSessionName f.feature s.name) := by
  refine ⟨_, List.mem_map_of_mem _ hf, rfl, _, List.mem_map_of_mem _ hs, rfl, rfl, ?_⟩
  intro hlen heq
  have hle := getSessionName_length_le f.feature s.name
  rw [← heq] at hle
  have hle' : (sanitizeName (f.feature ++ "-" ++ s.name)).length ≤ 30 := hle
  omega

def wSession : SessionConfig := ⟨"backend", 2, none, []⟩

def wFeature : FeatureConfig :=
  { feature := "supercalifragilistic-feature", description := "long name demo",
    branch_prefix := none, sessions := [wSession], dependencies := none }

/-- Closed witness for `orchestraState_session_name_untruncated`: the
sanitised concatenation has 36 characters, beyond the 30-character cut. -/
theorem orchestraState_session_name_witness :
    30 < (sanitizeName ("supercalifragilistic-feature" ++ "-" ++ "backend")).length
    ∧ ∃ fs ∈ (buildOrchestraState "t0" [wFeature] []).features,
        fs.feature = wFeature.feature
        ∧ ∃ ss ∈ fs.sessions,
            ss.name = wSession.name
            ∧ ss.session_name = sanitizeName (wFeature.feature ++ "-" ++ wSession.name)
            ∧ (30 < (sanitizeName (wFeature.feature ++ "-" ++ wSession.name)).length →
                ss.session_name ≠ getSessionName wFeature.feature wSession.name) :=
  ⟨by decide,
   orchestraState_session_name_untruncated "t0" [wFeature] [] wFeature wSession
     (by simp) (by simp [wFeature])⟩

/-- `loadOrchestraState` from `src/utils/orchestration.ts`: reads the state
document and parses it inside a try/catch that returns `null` on any
exception.  The filesystem read and `JSON.parse` are external oracles:
`read` is the outcome of `readFile`, `parse` of `JSON.parse`. -/
def loadOrchestraState {α : Type} (read : Except String String)
    (parse : String → Except String α) : Option α :=
  match read with
  | Except.error _ => none
  | Except.ok content =>
    match parse content with
    | Except.error _ => none
    | Except.ok v => some v

/-- C10: loading the persisted orchestration state never throws: it returns
`none` both when the state document cannot be read (missing or unreadable)
and when its contents fail to parse as JSON — making a corrupted state file
indistinguishable from a never-orchestrated project — and returns the parsed
document in every remaining case. -/
theorem loadOrchestraState_never_raises {α : Type} (read : Except String String)
    (parse : String → Except String α) :
    (∀ e, read = Except.error e → loadOrchestraState read parse = none)
    ∧ (∀ s e, read = Except.ok s → parse s = Except.error e →
        loadOrchestraState read parse = none)
    ∧ (∀ s v, read = Except.ok s → parse s = Except.ok v →
        loadOrchestraState read parse = some v) := by
  refine ⟨?_, ?_, ?_⟩
  · intro e he
    simp [loadOrchestraState, he]
  · intro s e hs hp
    simp [loadOrchestraState, hs, hp]
  · intro s v hs hp
    simp [loadOrchestraState, hs, hp]

def corruptParse : String → Except String Nat :=
  fun _ => Except.error "Unexpected token"

def intactParse : String → Except String Nat :=
  fun _ => Except.ok 7

/-- Closed witness for `loadOrchestraState_never_raises`: a missing file, a
corrupt document and an intact document. -/
theorem loadOrchestraState_witness :
    loadOrchestraState (Except.error "ENOENT") corruptParse = none
    ∧ loadOrchestraState (Except.ok "not json") corruptParse = none
    ∧ loadOrchestraState (Except.ok "doc") intactParse = some 7 :=
  ⟨(loadOrchestraState_never_raises (Except.error "ENOENT") corruptParse).1 "ENOENT" rfl,
   (loadOrchestraState_never_raises (Except.ok "not json") corruptParse).2.1
     "not json" "Unexpected token" rfl rfl,
   (loadOrchestraState_never_raises (Except.ok "doc") intactParse).2.2 "doc" 7 rfl rfl⟩

/-- A raw (pre-validation) session block as `SessionConfigSchema` sees it:
`panes` is a JavaScript number, embedded as a rational. -/
structure RawSessionConfig where
  name : String
  panes : Rat
  layout : Option String
  prompts : List String
deriving DecidableEq, Repr

/-- The five legal layout strings of the schema's layout enum. -/
def layoutValues : List String :=
  ["even-horizontal", "even-vertical", "main-horizontal", "main-vertical", "tiled"]

/-- `SessionConfigSchema` from `src/schemas/maestro.ts`:
`name` nonempty, `panes` a number with `.min(1).max(10)` (no integrality
check and no layout dependence), `layout` optional within the enum, and at
least one prompt. -/
def sessionConfigAccepts (s : RawSessionConfig) : Bool :=
  decide (1 ≤ s.name.length)
    && (decide ((1 : Rat) ≤ s.panes) && decide (s.panes ≤ 10))
    && s.layout.all (fun l => layoutValues.contains l)
    && decide (1 ≤ s.prompts.length)

/-- The pane-count rule exactly as claim C8 states it: an integer, at least
1, and at most 10 for horizontal layouts or 15 for vertical layouts. -/
def claimPanesAccepts (panes : Rat) (layout : Option String) : Bool :=
  panes.isInt && decide ((1 : Rat) ≤ panes)
    && decide (panes ≤ (if layout = some "even-vertical" ∨ layout = some "main-vertical"
        then (15 : Rat) else 10))

/-- The rational 5/2, written with explicit numerator and denominator. -/
def fiveHalves : Rat := ⟨5, 2, by decide, by decide⟩

/-- Counterexample to C8 as stated: a 12-pane `even-vertical` session is
within the claimed vertical cap of 15 yet the schema rejects it (the real
cap is 10 for every layout), and a fractional pane count of 5/2 is accepted
by the schema although the claim admits integers only. -/
theorem sessionConfig_counterexample :
    sessionConfigAccepts ⟨"dev", 12, some "even-vertical", ["x"]⟩ = false
    ∧ claimPanesAccepts 12 (some "even-vertical") = true
    ∧ sessionConfigAccepts ⟨"dev", fiveHalves, none, ["x"]⟩ = true
    ∧ claimPanesAccepts fiveHalves none = false := by
  refine ⟨?_, ?_, ?_, ?_⟩ <;> decide

/-- C8 amended: for a session block whose name, prompts and layout fields
are themselves valid, the schema accepts exactly the pane counts between 1
and 10 inclusive (integrality is not required), and the bound does not
depend on the layout. -/
theorem sessionConfig_accepts_iff (s : RawSessionConfig)
    (hname : 1 ≤ s.name.length) (hprompts : 1 ≤ s.prompts.length)
    (hlayout : s.layout.all (fun l => layoutValues.contains l) = true) :
    (sessionConfigAccepts s = true ↔ ((1 : Rat) ≤ s.panes ∧ s.panes ≤ 10))
    ∧ ∀ l', Option.all (fun l => layoutValues.contains l) l' = true →
        sessionConfigAccepts { s with layout := l' } = sessionConfigAccepts s := by
  have hlayout' : Option.all (fun l => decide (l ∈ layoutValues)) s.layout = true := by
    simpa using hlayout
  constructor
  · simp [sessionConfigAccepts, hname, hprompts, hlayout']
  · intro l' hl'
    have hl'' : Option.all (fun l => decide (l ∈ layoutValues)) l' = true := by
      simpa using hl'
    simp [sessionConfigAccepts, hlayout', hl'']

/-- Closed witness for `sessionConfig_accepts_iff`. -/
theorem sessionConfig_accepts_iff_witness :
    (sessionConfigAccepts ⟨"dev", 3, some "even-vertical", ["x"]⟩ = true
      ↔ ((1 : Rat) ≤ (3 : Rat) ∧ (3 : Rat) ≤ 10))
    ∧ ∀ l', Option.all (fun l => layoutValues.contains l) l' = true →
        sessionConfigAccepts { name := "dev", panes := 3, layout := l', prompts := ["x"] }
          = sessionConfigAccepts ⟨"dev", 3, some "even-vertical", ["x"]⟩ :=
  sessionConfig_accepts_iff ⟨"dev", 3, some "even-vertical", ["x"]⟩
    (by decide) (by decide) (by decide)

/-- A feature dependency graph: the `map<name, FeatureSpec>` of the
specification reduced to each feature's dependency list, in insertion
order. -/
abbrev Graph := List (String × List String)

/-- A feature name that exists in the graph. -/
def known (g : Graph) (n : String) : Bool :=
  (List.lookup n g).isSome

/-- The dependency list of a feature (empty for unknown names). -/
def depsOf (g : Graph) (n : String) : List String :=
  (List.lookup n g).getD []

/-- Failure modes of the resolver model: `cycle` is the
`CircularDependencyError` of the specification; `fuelOut` is exhaustion of
the termination fuel, proved unreachable below. -/
inductive ResolveErr where
  | cycle
  | fuelOut
deriving DecidableEq, Repr

/-- Modelled from the spec: the depth-first visit of §4.1 of the
specification, whose source (`resolveDependencies` in
`src/utils/maestro.ts`) is not part of the provided sources — only its
tests are.  `order` holds the *done* nodes in output order, `stack` the
*in-progress* chain; a node already done is skipped, a node already
in-progress raises the circular-dependency error, an unknown name is
silently skipped, and otherwise the node's dependencies are resolved
depth-first before the node itself is appended (post-order).  `fuel` bounds
the recursion depth for termination; `g.length + 1` is proved sufficient. -/
def visitList (g : Graph) : Nat → List String → List String → List String →
    Except ResolveErr (List String)
  | _, [], _, order => Except.ok order
  | 0, _ :: _, _, _ => Except.error ResolveErr.fuelOut
  | fuel + 1, n :: ns, stack, order =>
    if n ∈ order then visitList g (fuel + 1) ns stack order
    else if n ∈ stack then Except.error ResolveErr.cycle
    else match List.lookup n g with
      | none => visitList g (fuel + 1) ns stack order
      | some deps =>
        match visitList g fuel deps (n :: stack) order with
        | Except.error e => Except.error e
        | Except.ok order' => visitList g (fuel + 1) ns stack (order' ++ [n])
termination_by fuel names => (fuel, names.length)

/-- Modelled from the spec: `resolveDependencies(featureNames, config)` of
`src/utils/maestro.ts`, resolving the requested names depth-first from an
empty done set and an empty in-progress chain. -/
def resolveDependencies (requested : List String) (g : Graph) :
    Except ResolveErr (List String) :=
  visitList g (g.length + 1) requested [] []

/-- A dependency edge between known features: `b` is listed among the
dependencies of `a`. -/
def EdgeK (g : Graph) (a b : String) : Prop :=
  known g a = true ∧ b ∈ depsOf g a ∧ known g b = true

/-- Membership in the transitive dependency closure of a root set: reachable
along known-feature edges from a known root. -/
def InClosure (g : Graph) (roots : List String) (x : String) : Prop :=
  ∃ r ∈ roots, known g r = true ∧ Relation.ReflTransGen (EdgeK g) r x

/-- Acyclicity certificate: a rank function strictly decreasing along every
dependency edge of the graph. -/
def RankOk (g : Graph) (rank : String → Nat) : Prop :=
  ∀ p ∈ g, ∀ d ∈ p.2, known g d = true → rank d < rank p.1

/-- Every dependency of every element of `order` is itself in `order`,
strictly earlier. -/
def DepsBeforeIdx (g : Graph) (order : List String) : Prop :=
  ∀ a ∈ order, ∀ d ∈ depsOf g a, known g d = true →
    d ∈ order ∧ List.indexOf d order < List.indexOf a order

/-- Invariant of the done list: duplicate-free, all names known, and closed
under dependencies with dependencies placed earlier. -/
def OrderInv (g : Graph) (order : List String) : Prop :=
  order.Nodup ∧ (∀ x ∈ order, known g x = true) ∧ DepsBeforeIdx g order

theorem lookup_mem {g : Graph} {n : String} {deps : List String}
    (h : List.lookup n g = some deps) : (n, deps) ∈ g := by
  induction g with
  | nil => simp [List.lookup] at h
  | cons p rest ih =>
    obtain ⟨k, v⟩ := p
    by_cases hk : n = k
    · subst hk
      simp [List.lookup] at h
      simp [h]
    · have hbeq : (n == k) = false := beq_eq_false_iff_ne.mpr hk
      simp only [List.lookup, hbeq] at h
      exact List.mem_cons_of_mem _ (ih h)

theorem known_mem_keys {g : Graph} {s : String} (h : known g s = true) :
    s ∈ g.map Prod.fst := by
  rcases heq : List.lookup s g with _ | deps
  · rw [known, heq] at h
    simp at h
  · exact List.mem_map_of_mem Prod.fst (lookup_mem heq)

theorem stack_length_le {g : Graph} {stack : List String}
    (hnodup : stack.Nodup) (hknown : ∀ s ∈ stack, known g s = true) :
    stack.length ≤ g.length := by
  have hsub : stack.toFinset ⊆ (g.map Prod.fst).toFinset := by
    intro a ha
    rw [List.mem_toFinset] at ha ⊢
    exact known_mem_keys (hknown a ha)
  have h1 : stack.toFinset.card = stack.length := List.toFinset_card_of_nodup hnodup
  have h2 : (g.map Prod.fst).toFinset.card ≤ (g.map Prod.fst).length :=
    List.toFinset_card_le _
  have h3 := Finset.card_le_card hsub
  rw [List.length_map] at h2
  omega

theorem inClosure_nil {g : Graph} {x : String} : ¬ InClosure g [] x := by
  rintro ⟨r, hr, -⟩
  exact List.not_mem_nil r hr

theorem inClosure_cons {g : Graph} {n x : String} {ns : List String} :
    InClosure g (n :: ns) x
      ↔ ((known g n = true ∧ Relation.ReflTransGen (EdgeK g) n x) ∨ InClosure g ns x) := by
  constructor
  · rintro ⟨r, hr, hk, hrtg⟩
    rcases List.mem_cons.mp hr with rfl | hr'
    · exact Or.inl ⟨hk, hrtg⟩
    · exact Or.inr ⟨r, hr', hk, hrtg⟩
  · rintro (⟨hk, hrtg⟩ | ⟨r, hr, hk, hrtg⟩)
    · exact ⟨n, List.mem_cons_self n ns, hk, hrtg⟩
    · exact ⟨r, List.mem_cons_of_mem _ hr, hk, hrtg⟩

theorem reflTransGen_known_iff {g : Graph} {n : String} {deps : List String}
    (hl : List.lookup n g = some deps) (x : String) :
    Relation.ReflTransGen (EdgeK g) n x ↔ (x = n ∨ InClosure g deps x) := by
  constructor
  · intro h
    rcases Relation.ReflTransGen.cases_head h with heq | ⟨b, hb, hrtg⟩
    · exact Or.inl heq.symm
    · refine Or.inr ⟨b, ?_, hb.2.2, hrtg⟩
      have := hb.2.1
      simpa [depsOf, hl] using this
  · rintro (rfl | ⟨d, hd, hk, hrtg⟩)
    · exact Relation.ReflTransGen.refl
    · exact Relation.ReflTransGen.head
        ⟨by simp [known, hl], by simp [depsOf, hl, hd], hk⟩ hrtg

theorem mem_order_of_rtg {g : Graph} {order : List String}
    (hinv : OrderInv g order) {n x : String} (hn : n ∈ order)
    (h : Relation.ReflTransGen (EdgeK g) n x) : x ∈ order := by
  induction h with
  | refl => exact hn
  | tail _ hedge ih => exact (hinv.2.2 _ ih _ hedge.2.1 hedge.2.2).1

theorem transGen_idx_lt {g : Graph} {order : List String}
    (hinv : OrderInv g order) {a b : String}
    (h : Relation.TransGen (EdgeK g) a b) (ha : a ∈ order) :
    b ∈ order ∧ List.indexOf b order < List.indexOf a order := by
  induction h with
  | single hedge => exact hinv.2.2 _ ha _ hedge.2.1 hedge.2.2
  | tail _ hedge ih =>
    obtain ⟨hm, hlt⟩ := ih
    obtain ⟨hb, hlt₂⟩ := hinv.2.2 _ hm _ hedge.2.1 hedge.2.2
    exact ⟨hb, lt_trans hlt₂ hlt⟩

theorem orderInv_append {g : Graph} {order : List String} {n : String}
    (hinv : OrderInv g order) (hn : n ∉ order) (hkn : known g n = true)
    (hdeps : ∀ d ∈ depsOf g n, known g d = true → d ∈ order) :
    OrderInv g (order ++ [n]) := by
  obtain ⟨hnodup, hknown, hbefore⟩ := hinv
  refine ⟨?_, ?_, ?_⟩
  · rw [List.nodup_append]
    exact ⟨hnodup, List.nodup_singleton n, by
      intro a ha hb
      rw [List.mem_singleton] at hb
      subst hb
      exact hn ha⟩
  · intro x hx
    rcases List.mem_append.mp hx with hx | hx
    · exact hknown x hx
    · rw [List.mem_singleton] at hx
      subst hx
      exact hkn
  · intro a ha d hd hk
    rcases List.mem_append.mp ha with ha' | ha'
    · obtain ⟨hdo, hlt⟩ := hbefore a ha' d hd hk
      refine ⟨List.mem_append_left _ hdo, ?_⟩
      rw [List.indexOf_append_of_mem hdo, List.indexOf_append_of_mem ha']
      exact hlt
    · rw [List.mem_singleton] at ha'
      subst ha'
      have hdo : d ∈ order := hdeps d hd hk
      refine ⟨List.mem_append_left _ hdo, ?_⟩
      rw [List.indexOf_append_of_mem hdo, List.indexOf_append_of_not_mem hn]
      have := List.indexOf_lt_length.mpr hdo
      simp [List.indexOf_cons_self]
      omega

/-- Soundness of the depth-first visit: a successful run extends the done
list by exactly the closure of the visited names, keeps it duplicate-free
and dependency-ordered, and never adds an in-progress node. -/
theorem visitList_sound (g : Graph) :
    ∀ (fuel : Nat) (names stack order order' : List String),
      visitList g fuel names stack order = Except.ok order' →
      OrderInv g order →
      (∀ x ∈ order, x ∉ stack) →
      (∃ t, order' = order ++ t)
      ∧ OrderInv g order'
      ∧ (∀ x ∈ order', x ∉ order → x ∉ stack)
      ∧ (∀ x, x ∈ order' ↔ (x ∈ order ∨ InClosure g names x)) := by
  intro fuel
  induction fuel with
  | zero =>
    intro names stack order order' heq hinv hdisj
    cases names with
    | nil =>
      simp only [visitList] at heq
      cases heq
      refine ⟨⟨[], by simp⟩, hinv, fun x hx hnx => absurd hx hnx, fun x => ?_⟩
      constructor
      · exact Or.inl
      · rintro (hx | hx)
        · exact hx
        · exact absurd hx inClosure_nil
    | cons n ns => simp [visitList] at heq
  | succ fuel ihf =>
    intro names
    induction names with
    | nil =>
      intro stack order order' heq hinv hdisj
      simp only [visitList] at heq
      cases heq
      refine ⟨⟨[], by simp⟩, hinv, fun x hx hnx => absurd hx hnx, fun x => ?_⟩
      constructor
      · exact Or.inl
      · rintro (hx | hx)
        · exact hx
        · exact absurd hx inClosure_nil
    | cons n ns ihn =>
      intro stack order order' heq hinv hdisj
      by_cases hmem : n ∈ order
      · have heq' : visitList g (fuel + 1) ns stack order = Except.ok order' := by
          simpa [visitList, hmem] using heq
        obtain ⟨hpre, hinv', hnew, hset⟩ := ihn stack order order' heq' hinv hdisj
        refine ⟨hpre, hinv', hnew, fun x => ?_⟩
        rw [hset x, inClosure_cons]
        constructor
        · rintro (hx | hx)
          · exact Or.inl hx
          · exact Or.inr (Or.inr hx)
        · rintro (hx | (⟨hkn, hrtg⟩ | hx))
          · exact Or.inl hx
          · exact Or.inl (mem_order_of_rtg hinv hmem hrtg)
          · exact Or.inr hx
      · by_cases hstk : n ∈ stack
        · simp [visitList, hmem, hstk] at heq
        · rcases hl : List.lookup n g with _ | deps
          · have heq' : visitList g (fuel + 1) ns stack order = Except.ok order' := by
              simpa [visitList, hmem, hstk, hl] using heq
            obtain ⟨hpre, hinv', hnew, hset⟩ := ihn stack order order' heq' hinv hdisj
            refine ⟨hpre, hinv', hnew, fun x => ?_⟩
            rw [hset x, inClosure_cons]
            have hkn : known g n ≠ true := by simp [known, hl]
            constructor
            · rintro (hx | hx)
              · exact Or.inl hx
              · exact Or.inr (Or.inr hx)
            · rintro (hx | (⟨hkn', -⟩ | hx))
              · exact Or.inl hx
              · exact absurd hkn' hkn
              · exact Or.inr hx
          · have hkn : known g n = true := by simp [known, hl]
            rcases hrec : visitList g fuel deps (n :: stack) order with e | order₁
            · simp [visitList, hmem, hstk, hl, hrec] at heq
            · have heq' : visitList g (fuel + 1) ns stack (order₁ ++ [n]) = Except.ok order' := by
                simpa [visitList, hmem, hstk, hl, hrec] using heq
              have hdisj₁ : ∀ x ∈ order, x ∉ n :: stack := by
                intro x hx
                rw [List.mem_cons]
                rintro (rfl | hx')
                · exact hmem hx
                · exact hdisj x hx hx'
              obtain ⟨⟨t₁, hpre₁⟩, hinv₁, hnew₁, hset₁⟩ :=
                ihf deps (n :: stack) order order₁ hrec hinv hdisj₁
              have hn₁ : n ∉ order₁ := by
                intro hn₁
                rcases Decidable.em (n ∈ order) with h | h
                · exact hmem h
                · exact hnew₁ n hn₁ h (List.mem_cons_self n stack)
              have hdeps₁ : ∀ d ∈ depsOf g n, known g d = true → d ∈ order₁ := by
                intro d hd hk
                refine (hset₁ d).mpr (Or.inr ⟨d, ?_, hk, Relation.ReflTransGen.refl⟩)
                simpa [depsOf, hl] using hd
              have hinv₂ : OrderInv g (order₁ ++ [n]) :=
                orderInv_append hinv₁ hn₁ hkn hdeps₁
              have hdisj₂ : ∀ x ∈ order₁ ++ [n], x ∉ stack := by
                intro x hx
                rcases List.mem_append.mp hx with hx' | hx'
                · rcases Decidable.em (x ∈ order) with h | h
                  · exact hdisj x h
                  · intro hxs
                    exact hnew₁ x hx' h (List.mem_cons_of_mem _ hxs)
                · rw [List.mem_singleton] at hx'
                  subst hx'
                  exact hstk
              obtain ⟨⟨t₂, hpre₂⟩, hinv', hnew', hset₂⟩ :=
                ihn stack (order₁ ++ [n]) order' heq' hinv₂ hdisj₂
              refine ⟨⟨t₁ ++ [n] ++ t₂, by rw [hpre₂, hpre₁]; simp⟩, hinv', ?_, ?_⟩
              · intro x hx hxo
                rcases Decidable.em (x ∈ order₁ ++ [n]) with h | h
                · rcases List.mem_append.mp h with h' | h'
                  · intro hxs
                    exact hnew₁ x h' hxo (List.mem_cons_of_mem _ hxs)
                  · rw [List.mem_singleton] at h'
                    subst h'
                    exact hstk
                · exact hnew' x hx h
              · intro x
                rw [hset₂ x, inClosure_cons, hkn]
                have hx₁ := hset₁ x
                rw [reflTransGen_known_iff hl x]
                constructor
                · rintro (hx | hx)
                  · rcases List.mem_append.mp hx with h' | h'
                    · rcases (hset₁ x).mp h' with h'' | h''
                      · exact Or.inl h''
                      · exact Or.inr (Or.inl ⟨rfl, Or.inr h''⟩)
                    · rw [List.mem_singleton] at h'
                      exact Or.inr (Or.inl ⟨rfl, Or.inl h'⟩)
                  · exact Or.inr (Or.inr hx)
                · rintro (hx | (⟨-, hx⟩ | hx))
                  · exact Or.inl (List.mem_append_left _ ((hset₁ x).mpr (Or.inl hx)))
                  · rcases hx with hx | hx
                    · subst hx
                      exact Or.inl (List.mem_append_right _ (List.mem_singleton_self x))
                    · exact Or.inl (List.mem_append_left _ ((hset₁ x).mpr (Or.inr hx)))
                  · exact Or.inr hx

/-- Completion: with a rank certificate of acyclicity, the visit never hits
the in-progress check and never exhausts its fuel, so it returns
successfully from any dependency-closed start state. -/
theorem visitList_complete (g : Graph) (rank : String → Nat) (hr : RankOk g rank) :
    ∀ (fuel : Nat) (names stack : List String),
      stack.Nodup →
      (∀ s ∈ stack, known g s = true) →
      (∀ n ∈ names, known g n = true → ∀ s ∈ stack, rank n < rank s) →
      g.length + 1 ≤ fuel + stack.length →
      ∀ order, ∃ order', visitList g fuel names stack order = Except.ok order' := by
  intro fuel
  induction fuel with
  | zero =>
    intro names stack hnodup hsknown hnames hfuel order
    cases names with
    | nil => exact ⟨order, by simp [visitList]⟩
    | cons n ns =>
      exfalso
      have := stack_length_le hnodup hsknown
      omega
  | succ fuel ihf =>
    intro names
    induction names with
    | nil => exact fun stack _ _ _ _ order => ⟨order, by simp [visitList]⟩
    | cons n ns ihn =>
      intro stack hnodup hsknown hnames hfuel order
      by_cases hmem : n ∈ order
      · obtain ⟨order', h'⟩ := ihn stack hnodup hsknown
          (fun m hm => hnames m (List.mem_cons_of_mem _ hm)) hfuel order
        exact ⟨order', by simpa [visitList, hmem] using h'⟩
      · have hstk : n ∉ stack := by
          intro hn
          have hkn : known g n = true := hsknown n hn
          exact lt_irrefl _ (hnames n (List.mem_cons_self n ns) hkn n hn)
        rcases hl : List.lookup n g with _ | deps
        · obtain ⟨order', h'⟩ := ihn stack hnodup hsknown
            (fun m hm => hnames m (List.mem_cons_of_mem _ hm)) hfuel order
          exact ⟨order', by simpa [visitList, hmem, hstk, hl] using h'⟩
        · have hkn : known g n = true := by simp [known, hl]
          have hrankdeps : ∀ d ∈ deps, known g d = true → ∀ s ∈ n :: stack, rank d < rank s := by
            intro d hd hk s hs
            have hdn : rank d < rank n := hr (n, deps) (lookup_mem hl) d hd hk
            rcases List.mem_cons.mp hs with rfl | hs'
            · exact hdn
            · exact lt_trans hdn (hnames n (List.mem_cons_self n ns) hkn s hs')
          obtain ⟨order₁, hrec⟩ := ihf deps (n :: stack)
            (List.nodup_cons.mpr ⟨hstk, hnodup⟩)
            (by
              intro s hs
              rcases List.mem_cons.mp hs with rfl | hs'
              · exact hkn
              · exact hsknown s hs')
            hrankdeps
            (by simp only [List.length_cons]; omega)
            order
          obtain ⟨order', h'⟩ := ihn stack hnodup hsknown
            (fun m hm => hnames m (List.mem_cons_of_mem _ hm)) hfuel (order₁ ++ [n])
          exact ⟨order', by simpa [visitList, hmem, hstk, hl, hrec] using h'⟩

/-- The default fuel `g.length + 1` never runs out, with or without
acyclicity: the in-progress chain only ever holds distinct known features. -/
theorem visitList_ne_fuelOut (g : Graph) :
    ∀ (fuel : Nat) (names stack order : List String),
      stack.Nodup →
      (∀ s ∈ stack, known g s = true) →
      g.length + 1 ≤ fuel + stack.length →
      visitList g fuel names stack order ≠ Except.error ResolveErr.fuelOut := by
  intro fuel
  induction fuel with
  | zero =>
    intro names stack order hnodup hsknown hfuel
    cases names with
    | nil => simp [visitList]
    | cons n ns =>
      exfalso
      have := stack_length_le hnodup hsknown
      omega
  | succ fuel ihf =>
    intro names
    induction names with
    | nil => intro stack order _ _ _; simp [visitList]
    | cons n ns ihn =>
      intro stack order hnodup hsknown hfuel
      by_cases hmem : n ∈ order
      · have := ihn stack order hnodup hsknown hfuel
        simpa [visitList, hmem] using this
      · by_cases hstk : n ∈ stack
        · simp [visitList, hmem, hstk]
        · rcases hl : List.lookup n g with _ | deps
          · have := ihn stack order hnodup hsknown hfuel
            simpa [visitList, hmem, hstk, hl] using this
          · have hkn : known g n = true := by simp [known, hl]
            rcases hrec : visitList g fuel deps (n :: stack) order with e | order₁
            · have hne := ihf deps (n :: stack) order
                (List.nodup_cons.mpr ⟨hstk, hnodup⟩)
                (by
                  intro s hs
                  rcases List.mem_cons.mp hs with rfl | hs'
                  · exact hkn
                  · exact hsknown s hs')
                (by simp only [List.length_cons]; omega)
              rw [hrec] at hne
              have hene : e ≠ ResolveErr.fuelOut := fun hc => hne (by rw [hc])
              simp [visitList, hmem, hstk, hl, hrec, hene]
            · have := ihn stack (order₁ ++ [n]) hnodup hsknown hfuel
              simpa [visitList, hmem, hstk, hl, hrec] using this

/-- The feature graph of the specification's worked example:
`auth` (no dependencies), `api` (depends on `auth`), `ui` (depends on
`auth` and `api`). -/
def demoOrchestra : Graph :=
  [("auth", []), ("api", ["auth"]), ("ui", ["auth", "api"])]

/-- A rank certificate of acyclicity for `demoOrchestra`. -/
def demoRank : String → Nat :=
  fun n => if n = "auth" then 0 else if n = "api" then 1 else 2

/-- A one-node graph whose single feature lists itself as a dependency. -/
def selfLoopGraph : Graph := [("self", ["self"])]

/-- C2: for every acyclic dependency graph (witnessed by a rank function
decreasing along dependency edges) and requested name list, the resolver
succeeds with an order that contains exactly the requested names' transitive
dependency closure, each exactly once, and places every dependency strictly
before every feature that declares it; in particular, on the worked example
`resolveDependencies ["ui"]` is exactly `["auth", "api", "ui"]`. -/
theorem resolveDependencies_correct :
    (∀ (g : Graph) (requested : List String) (rank : String → Nat),
      RankOk g rank →
      ∃ order, resolveDependencies requested g = Except.ok order
        ∧ order.Nodup
        ∧ (∀ x, x ∈ order ↔ InClosure g requested x)
        ∧ (∀ a ∈ order, ∀ d ∈ depsOf g a, known g d = true →
            d ∈ order ∧ List.indexOf d order < List.indexOf a order))
    ∧ resolveDependencies ["ui"] demoOrchestra = Except.ok ["auth", "api", "ui"] := by
  constructor
  · intro g requested rank hr
    have inv₀ : OrderInv g [] :=
      ⟨List.nodup_nil, by simp, fun a ha => absurd ha (List.not_mem_nil a)⟩
    obtain ⟨order, hok⟩ := visitList_complete g rank hr (g.length + 1) requested []
      List.nodup_nil (by simp) (by simp) (by simp) []
    obtain ⟨-, hinv, -, hset⟩ :=
      visitList_sound g (g.length + 1) requested [] [] order hok inv₀ (by simp)
    refine ⟨order, hok, hinv.1, fun x => ?_, hinv.2.2⟩
    rw [hset x]
    simp
  · simp [resolveDependencies, demoOrchestra, visitList, List.lookup]

/-- Closed witness for `resolveDependencies_correct`, discharging the
acyclicity hypothesis with the concrete rank function on the worked
example. -/
theorem resolveDependencies_correct_witness :
    RankOk demoOrchestra demoRank
    ∧ ∃ order, resolveDependencies ["ui"] demoOrchestra = Except.ok order
        ∧ order.Nodup
        ∧ (∀ x, x ∈ order ↔ InClosure demoOrchestra ["ui"] x)
        ∧ (∀ a ∈ order, ∀ d ∈ depsOf demoOrchestra a, known demoOrchestra d = true →
            d ∈ order ∧ List.indexOf d order < List.indexOf a order) :=
  ⟨by unfold RankOk; decide,
   resolveDependencies_correct.1 demoOrchestra ["ui"] demoRank (by unfold RankOk; decide)⟩

/-- C3: on every graph with a dependency cycle reachable from the requested
set — a closure member `x` with a nonempty dependency path back to itself —
the resolver reports the circular-dependency error: its only outcome is the
error value, so no order is produced and, the model being a pure function on
an explicit state, no effect is performed. -/
theorem resolveDependencies_cycle_error (g : Graph) (requested : List String)
    (x : String) (hx : InClosure g requested x)
    (hcyc : Relation.TransGen (EdgeK g) x x) :
    resolveDependencies requested g = Except.error ResolveErr.cycle := by
  rcases hres : resolveDependencies requested g with e | order
  · cases e with
    | cycle => rfl
    | fuelOut =>
      exfalso
      exact visitList_ne_fuelOut g (g.length + 1) requested [] []
        List.nodup_nil (by simp) (by simp) hres
  · exfalso
    have inv₀ : OrderInv g [] :=
      ⟨List.nodup_nil, by simp, fun a ha => absurd ha (List.not_mem_nil a)⟩
    obtain ⟨-, hinv, -, hset⟩ :=
      visitList_sound g (g.length + 1) requested [] [] order hres inv₀ (by simp)
    have hxo : x ∈ order := (hset x).mpr (Or.inr hx)
    obtain ⟨-, hlt⟩ := transGen_idx_lt hinv hcyc hxo
    exact lt_irrefl _ hlt

/-- Closed witness for `resolveDependencies_cycle_error`: the one-node
self-cycle, where the feature lists its own name among its dependencies. -/
theorem resolveDependencies_cycle_witness :
    resolveDependencies ["self"] selfLoopGraph = Except.error ResolveErr.cycle :=
  resolveDependencies_cycle_error selfLoopGraph ["self"] "self"
    ⟨"self", by decide, by decide, Relation.ReflTransGen.refl⟩
    (Relation.TransGen.single ⟨by decide, by decide, by decide⟩)

end Maestro
